import Mathlib

/-!
Verification of the harvest-pipeline specification against the
`zksync-wtf` sources (`airbender_hashes/src/main.rs`,
`prover_commits/src/main.rs`, `contract_addresses/src/main.rs`).

The Rust code is shallowly embedded:
* `serde_json::Value` becomes the mutual inductive `Json` / `JsonArr` /
  `JsonObj` (object fields are kept in iteration order; `serde_json`'s
  default `Map` is a `BTreeMap`, so that order is the sorted key order —
  none of the embedded functions depend on which order it is).
* `HashMap<String, _>` values are modelled as association lists whose
  `insert` overwrites the previous binding of the key
  (`hmInsert` / `hmExtend`); iteration order of a `HashMap` is
  unspecified, so theorems that depend on it quantify over
  permutations of the association list.
* network calls are modelled by passing the response
  (status code plus decoded body, or a transport error) as an argument;
  `reqwest`'s `error_for_status` is embedded as `error_for_status`.
* the `tokio` dispatch loops become explicit folds over the list of
  per-candidate results, and the semaphore-bounded scheduling becomes a
  small step relation on a `DispatchState`.
-/

/-- Embedding of Rust `str::starts_with` for a `&str` pattern: the pattern's
bytes are a prefix of the subject's bytes, which for two valid UTF-8 strings
is equivalent to its character list being a prefix. -/
def strStartsWith (s pat : String) : Bool :=
  pat.data.isPrefixOf s.data

/-- Embedding of Rust `str::ends_with` for a `&str` pattern. -/
def strEndsWith (s pat : String) : Bool :=
  pat.data.isSuffixOf s.data

theorem nil_isPrefixOf (l : List Char) : List.isPrefixOf [] l = true := by
  cases l <;> rfl

theorem strStartsWith_empty (s : String) : strStartsWith s "" = true := by
  show List.isPrefixOf "".data s.data = true
  exact nil_isPrefixOf s.data

/-- A hexadecimal digit as accepted by the character class `[0-9a-fA-F]`. -/
def isHexDigitChar (c : Char) : Bool :=
  ('0' ≤ c && c ≤ '9') || ('a' ≤ c && c ≤ 'f') || ('A' ≤ c && c ≤ 'F')

/-- Embedding of `prover_commits`' `HASH_RE = ^0x[0-9a-fA-F]{64}$`
(anchored at both ends, so it is an exact-shape test on the whole string). -/
def isHashLike (s : String) : Bool :=
  match s.data with
  | '0' :: 'x' :: rest => rest.length == 64 && rest.all isHexDigitChar
  | _ => false

/-- One value of the output `items` map
(`OutputItem { value, url, description }` in both harvesters). -/
structure OutputItem where
  value : String
  url : String
  description : String
deriving DecidableEq

/-- A `HashMap<String, α>` modelled as an association list. -/
abbrev StrMap (α : Type) := List (String × α)

abbrev EntryMap := StrMap OutputItem

/-- `HashMap::insert` / the per-pair step of `HashMap::extend`: the new
binding replaces any previous binding of the same key. -/
def hmInsert {α : Type} (m : StrMap α) (kv : String × α) : StrMap α :=
  kv :: m.filter (fun p => decide (p.1 ≠ kv.1))

/-- `HashMap::extend`: insert every pair of `l` into `m` in turn. -/
def hmExtend {α : Type} (m l : StrMap α) : StrMap α :=
  l.foldl hmInsert m

def keysOf {α : Type} (m : StrMap α) : List String :=
  m.map Prod.fst

/-! ## The JSON tree (`serde_json::Value`) -/

mutual
inductive Json where
  | null
  | bool (b : Bool)
  | num (n : Int)
  | str (s : String)
  | arr (xs : JsonArr)
  | obj (kvs : JsonObj)
inductive JsonArr where
  | nil
  | cons (hd : Json) (tl : JsonArr)
inductive JsonObj where
  | nil
  | cons (k : String) (v : Json) (tl : JsonObj)
end

def JsonArr.toList : JsonArr → List Json
  | .nil => []
  | .cons x xs => x :: xs.toList

def JsonObj.toList : JsonObj → List (String × Json)
  | .nil => []
  | .cons k v kvs => (k, v) :: kvs.toList

/-! ## `airbender_hashes`: `find_string_by_key`

The source walks the tree, and at each object entry `(k, vv)` first tests
whether `k` is the target key with `vv` a string (returning that string),
then recurses into `vv`, then moves to the next entry; arrays are scanned
element by element.  The first hit is returned. -/

/-- The direct test made at each object entry `(k, vv)`: does `k` equal the
target key with `vv` holding a string value? -/
def AB.keyHit (k key : String) (vv : Json) : Option String :=
  if k = key then (match vv with | .str s => some s | _ => none) else none

mutual
def AB.find_string_by_key : Json → String → Option String
  | .obj kvs, key => AB.findInObj kvs key
  | .arr xs, key => AB.findInArr xs key
  | _, _ => none
def AB.findInObj : JsonObj → String → Option String
  | .nil, _ => none
  | .cons k vv rest, key =>
    match AB.keyHit k key vv with
    | some s => some s
    | none =>
      match AB.find_string_by_key vv key with
      | some s => some s
      | none => AB.findInObj rest key
def AB.findInArr : JsonArr → String → Option String
  | .nil, _ => none
  | .cons x rest, key =>
    match AB.find_string_by_key x key with
    | some s => some s
    | none => AB.findInArr rest key
end

/-! Specification side (from the claim's words): the list of string values
stored directly under the target key, in depth-first, in-order traversal
order — at an object entry the direct match comes first, then the matches
inside the entry's value, then the later entries; array elements are
visited in index order. -/

/-- Specification side of the direct test: the (zero- or one-element) list of
string values held directly under `k` when `k` is the target key. -/
def keyOcc (k key : String) (v : Json) : List String :=
  if k = key then (match v with | .str s => [s] | _ => []) else []

mutual
def dfsKeyOccurrences (key : String) : Json → List String
  | .obj kvs => dfsOccObj key kvs
  | .arr xs => dfsOccArr key xs
  | _ => []
def dfsOccObj (key : String) : JsonObj → List String
  | .nil => []
  | .cons k v rest =>
    keyOcc k key v ++ dfsKeyOccurrences key v ++ dfsOccObj key rest
def dfsOccArr (key : String) : JsonArr → List String
  | .nil => []
  | .cons x rest => dfsKeyOccurrences key x ++ dfsOccArr key rest
end

theorem keyHit_eq_head (k key : String) (v : Json) :
    AB.keyHit k key v = (keyOcc k key v).head? := by
  unfold AB.keyHit keyOcc
  by_cases hk : k = key
  · rw [if_pos hk, if_pos hk]
    cases v <;> rfl
  · rw [if_neg hk, if_neg hk]
    rfl

/-! ## `prover_commits`: `collect_hashes`

The source walks the tree carrying a path string `prefix`; at a string leaf
matching `HASH_RE` it inserts `prefix → value` into the output map, array
elements extend the path as `prefix[i]`, object entries as `prefix.k`
(just `k` when the path is empty).  We model the traversal as the list of
`(path, value)` pairs in the order the source performs its `out.insert`
calls; the `HashMap` itself is that list folded through `hmInsert`. -/

/-- Path extension for an object field, from `collect_hashes`'s
`if prefix.is_empty() { k } else { format prefix.k }`. -/
def PC.joinField (pre k : String) : String :=
  if pre.isEmpty then k else pre ++ "." ++ k

mutual
def PC.collect_hashes (pre : String) : Json → List (String × String)
  | .str s => if isHashLike s then [(pre, s)] else []
  | .arr xs => PC.collectArr pre 0 xs
  | .obj kvs => PC.collectObj pre kvs
  | _ => []
def PC.collectArr (pre : String) (i : Nat) : JsonArr → List (String × String)
  | .nil => []
  | .cons x rest =>
    PC.collect_hashes (pre ++ "[" ++ toString i ++ "]") x ++ PC.collectArr pre (i + 1) rest
def PC.collectObj (pre : String) : JsonObj → List (String × String)
  | .nil => []
  | .cons k v rest =>
    PC.collect_hashes (PC.joinField pre k) v ++ PC.collectObj pre rest
end

/-- Specification side (from the claim's words): value `v` is recorded under
key `k` while scanning tree `t` from path `pre` exactly when some
string-valued leaf of `t` matches the hash shape and `k` is the structural
path to that leaf — object-key segments joined by a dot and array elements
rendered as `name[index]`. -/
inductive HashAt : String → Json → String → String → Prop
  | str (pre s : String) : isHashLike s = true → HashAt pre (.str s) pre s
  | arr (pre : String) (i : Nat) (x : Json) (k v : String) (xs : JsonArr) :
      xs.toList.get? i = some x →
      HashAt (pre ++ "[" ++ toString i ++ "]") x k v → HashAt pre (.arr xs) k v
  | obj (pre k0 : String) (x : Json) (k v : String) (kvs : JsonObj) :
      (k0, x) ∈ kvs.toList →
      HashAt (PC.joinField pre k0) x k v → HashAt pre (.obj kvs) k v

mutual
theorem collect_mem (t : Json) (pre k v : String) :
    (k, v) ∈ PC.collect_hashes pre t ↔ HashAt pre t k v := by
  cases t with
  | null =>
    rw [show PC.collect_hashes pre Json.null = [] from rfl]
    exact ⟨fun h => absurd h (List.not_mem_nil _), fun h => by cases h⟩
  | bool b =>
    rw [show PC.collect_hashes pre (Json.bool b) = [] from rfl]
    exact ⟨fun h => absurd h (List.not_mem_nil _), fun h => by cases h⟩
  | num n =>
    rw [show PC.collect_hashes pre (Json.num n) = [] from rfl]
    exact ⟨fun h => absurd h (List.not_mem_nil _), fun h => by cases h⟩
  | str s =>
    rw [show PC.collect_hashes pre (Json.str s)
        = (if isHashLike s then [(pre, s)] else []) from rfl]
    by_cases hs : isHashLike s
    · rw [if_pos hs]
      constructor
      · intro h
        rcases List.mem_singleton.mp h with h
        rw [Prod.mk.injEq] at h
        rw [h.1, h.2]
        exact HashAt.str pre s hs
      · intro h
        cases h with
        | str _ _ _ => exact List.mem_singleton.mpr rfl
    · rw [if_neg hs]
      constructor
      · intro h
        exact absurd h (List.not_mem_nil _)
      · intro h
        cases h with
        | str _ _ h' => exact absurd h' hs
  | arr xs =>
    rw [show PC.collect_hashes pre (Json.arr xs) = PC.collectArr pre 0 xs from rfl]
    rw [collectArr_mem xs pre 0 k v]
    constructor
    · rintro ⟨j, x, hj, hx⟩
      rw [Nat.zero_add] at hx
      exact HashAt.arr pre j x k v xs hj hx
    · intro h
      cases h with
      | arr _ i x _ _ _ hi hx =>
        exact ⟨i, x, hi, by rw [Nat.zero_add]; exact hx⟩
  | obj kvs =>
    rw [show PC.collect_hashes pre (Json.obj kvs) = PC.collectObj pre kvs from rfl]
    rw [collectObj_mem kvs pre k v]
    constructor
    · rintro ⟨k0, x, hk0, hx⟩
      exact HashAt.obj pre k0 x k v kvs hk0 hx
    · intro h
      cases h with
      | obj _ k0 x _ _ _ hk0 hx => exact ⟨k0, x, hk0, hx⟩
theorem collectArr_mem (xs : JsonArr) (pre : String) (i : Nat) (k v : String) :
    (k, v) ∈ PC.collectArr pre i xs
      ↔ ∃ j x, xs.toList.get? j = some x
          ∧ HashAt (pre ++ "[" ++ toString (i + j) ++ "]") x k v := by
  cases xs with
  | nil =>
    rw [show PC.collectArr pre i JsonArr.nil = [] from rfl]
    simp [JsonArr.toList]
  | cons x rest =>
    rw [show PC.collectArr pre i (JsonArr.cons x rest)
        = PC.collect_hashes (pre ++ "[" ++ toString i ++ "]") x
            ++ PC.collectArr pre (i + 1) rest from rfl]
    rw [List.mem_append, collect_mem x _ k v, collectArr_mem rest pre (i + 1) k v]
    constructor
    · rintro (h | ⟨j, y, hj, hy⟩)
      · exact ⟨0, x, rfl, by rw [Nat.add_zero]; exact h⟩
      · refine ⟨j + 1, y, hj, ?_⟩
        rw [show i + (j + 1) = i + 1 + j by omega]
        exact hy
    · rintro ⟨j, y, hj, hy⟩
      cases j with
      | zero =>
        rw [show (JsonArr.cons x rest).toList.get? 0 = some x from rfl] at hj
        cases hj
        rw [Nat.add_zero] at hy
        exact Or.inl hy
      | succ j' =>
        rw [show (JsonArr.cons x rest).toList.get? (j' + 1)
            = rest.toList.get? j' from rfl] at hj
        refine Or.inr ⟨j', y, hj, ?_⟩
        rw [show i + 1 + j' = i + (j' + 1) by omega]
        exact hy
theorem collectObj_mem (kvs : JsonObj) (pre k v : String) :
    (k, v) ∈ PC.collectObj pre kvs
      ↔ ∃ k0 x, (k0, x) ∈ kvs.toList ∧ HashAt (PC.joinField pre k0) x k v := by
  cases kvs with
  | nil =>
    rw [show PC.collectObj pre JsonObj.nil = [] from rfl]
    simp [JsonObj.toList]
  | cons k0 x rest =>
    rw [show PC.collectObj pre (JsonObj.cons k0 x rest)
        = PC.collect_hashes (PC.joinField pre k0) x ++ PC.collectObj pre rest from rfl]
    rw [List.mem_append, collect_mem x _ k v, collectObj_mem rest pre k v]
    rw [show (JsonObj.cons k0 x rest).toList = (k0, x) :: rest.toList from rfl]
    constructor
    · rintro (h | ⟨k1, y, hk1, hy⟩)
      · exact ⟨k0, x, List.mem_cons_self _ _, h⟩
      · exact ⟨k1, y, List.mem_cons_of_mem _ hk1, hy⟩
    · rintro ⟨k1, y, hk1, hy⟩
      rcases List.mem_cons.mp hk1 with h | h
      · rw [Prod.mk.injEq] at h
        rw [h.1, h.2] at hy
        exact Or.inl hy
      · exact Or.inr ⟨k1, y, h, hy⟩
end

mutual
theorem find_eq_head (v : Json) (key : String) :
    AB.find_string_by_key v key = (dfsKeyOccurrences key v).head? := by
  cases v with
  | arr xs => simpa [AB.find_string_by_key, dfsKeyOccurrences] using findArr_eq_head xs key
  | obj kvs => simpa [AB.find_string_by_key, dfsKeyOccurrences] using findObj_eq_head kvs key
  | _ => rfl
theorem findArr_eq_head (xs : JsonArr) (key : String) :
    AB.findInArr xs key = (dfsOccArr key xs).head? := by
  cases xs with
  | nil => rfl
  | cons x rest =>
    rw [AB.findInArr, dfsOccArr, List.head?_append, find_eq_head x key,
      findArr_eq_head rest key]
    cases (dfsKeyOccurrences key x).head? <;> rfl
theorem findObj_eq_head (kvs : JsonObj) (key : String) :
    AB.findInObj kvs key = (dfsOccObj key kvs).head? := by
  cases kvs with
  | nil => rfl
  | cons k v rest =>
    rw [AB.findInObj, dfsOccObj, List.head?_append, List.head?_append,
      find_eq_head v key, findObj_eq_head rest key, keyHit_eq_head k key v]
    generalize (keyOcc k key v).head? = o1
    generalize (dfsKeyOccurrences key v).head? = o2
    cases o1 <;> cases o2 <;> rfl
end

/-! ## Association-map lemmas (keys of the modelled `HashMap`s) -/

theorem keysOf_hmInsert {α : Type} (m : StrMap α) (kv : String × α) :
    keysOf (hmInsert m kv) = kv.1 :: keysOf (m.filter (fun p => decide (p.1 ≠ kv.1))) := rfl

theorem nodup_keys_hmInsert {α : Type} (m : StrMap α) (kv : String × α)
    (h : (keysOf m).Nodup) : (keysOf (hmInsert m kv)).Nodup := by
  rw [keysOf_hmInsert]
  refine List.nodup_cons.mpr ⟨?_, ?_⟩
  · intro hmem
    rcases List.mem_map.mp hmem with ⟨p, hp, hfst⟩
    rcases List.mem_filter.mp hp with ⟨_, hne⟩
    exact (of_decide_eq_true hne) hfst
  · exact List.Nodup.sublist (List.Sublist.map Prod.fst (List.filter_sublist m)) h

theorem nodup_keys_hmExtend {α : Type} (l : StrMap α) :
    ∀ m : StrMap α, (keysOf m).Nodup → (keysOf (hmExtend m l)).Nodup := by
  induction l with
  | nil => intro m h; exact h
  | cons kv rest ih => intro m h; exact ih (hmInsert m kv) (nodup_keys_hmInsert m kv h)

theorem mem_keys_hmInsert {α : Type} (m : StrMap α) (kv : String × α) (k : String)
    (h : k ∈ keysOf m) : k ∈ keysOf (hmInsert m kv) := by
  rw [keysOf_hmInsert]
  by_cases hk : k = kv.1
  · rw [hk]; exact List.mem_cons_self _ _
  · refine List.mem_cons_of_mem _ ?_
    rcases List.mem_map.mp h with ⟨p, hp, hfst⟩
    refine List.mem_map.mpr ⟨p, List.mem_filter.mpr ⟨hp, ?_⟩, hfst⟩
    exact decide_eq_true (fun hc => hk (hfst ▸ hc))

theorem mem_keys_hmInsert_self {α : Type} (m : StrMap α) (kv : String × α) :
    kv.1 ∈ keysOf (hmInsert m kv) := by
  rw [keysOf_hmInsert]; exact List.mem_cons_self _ _

theorem mem_keys_hmExtend_left {α : Type} (l : StrMap α) :
    ∀ m k, k ∈ keysOf m → k ∈ keysOf (hmExtend m l) := by
  induction l with
  | nil => intro m k h; exact h
  | cons kv rest ih => intro m k h; exact ih (hmInsert m kv) k (mem_keys_hmInsert m kv k h)

theorem mem_keys_hmExtend_right {α : Type} (l : StrMap α) :
    ∀ m k, k ∈ keysOf l → k ∈ keysOf (hmExtend m l) := by
  induction l with
  | nil => intro m k h; cases h
  | cons kv rest ih =>
    intro m k h
    rcases List.mem_cons.mp h with h | h
    · rw [h]
      exact mem_keys_hmExtend_left rest (hmInsert m kv) kv.1 (mem_keys_hmInsert_self m kv)
    · exact ih (hmInsert m kv) k h

/-! ## The aggregation and sort shared by both `main` functions

Both harvesters accumulate per-candidate entry maps into one `HashMap` via
`extend`, then collect into a `Vec`, sort it by key (`sort_by(a.cmp(b))`),
and collect into a `BTreeMap` that serialization writes in key order.
The `Vec` produced from the `HashMap` is in unspecified iteration order, so
the sort is modelled on an arbitrary permutation of the aggregate. -/

def Agg.aggregate (contribs : List EntryMap) : EntryMap :=
  contribs.foldl hmExtend []

theorem nodup_keys_aggregate (contribs : List EntryMap) :
    (keysOf (Agg.aggregate contribs)).Nodup := by
  have aux : ∀ cs : List EntryMap, ∀ m : EntryMap, (keysOf m).Nodup →
      (keysOf (cs.foldl hmExtend m)).Nodup := by
    intro cs
    induction cs with
    | nil => intro m h; exact h
    | cons c rest ih => intro m h; exact ih (hmExtend m c) (nodup_keys_hmExtend c m h)
  exact aux contribs [] List.nodup_nil

/-- The comparator `|(a, _), (b, _)| a.cmp(b)` used by `sorted.sort_by`. -/
def keyLE (a b : String × OutputItem) : Prop := a.1 ≤ b.1

instance : DecidableRel keyLE := fun a b => inferInstanceAs (Decidable (a.1 ≤ b.1))

instance : IsTotal (String × OutputItem) keyLE := ⟨fun a b => le_total a.1 b.1⟩

instance : IsTrans (String × OutputItem) keyLE := ⟨fun _ _ _ h1 h2 => le_trans h1 h2⟩

/-- The key-sort performed on the collected entries before output:
a stable sort by key (`sort_by` with `a.cmp(b)`), followed by a collect
into a `BTreeMap` which on a key-sorted duplicate-free list is the
identity on contents. -/
def finalizeItems (l : EntryMap) : EntryMap :=
  List.insertionSort keyLE l

/-- The output envelope (`Output { source, fetched_at, items }`); the
timestamp is abstracted to a number. -/
structure Output where
  source : String
  fetched_at : Nat
  items : EntryMap

def mkOutput (src : String) (ts : Nat) (l : EntryMap) : Output :=
  { source := src, fetched_at := ts, items := finalizeItems l }

/-! ## `airbender_hashes`: the per-file extraction tail of `fetch_and_extract` -/

/-- The pure extraction tail of `fetch_and_extract`: search the parsed value
for the two target keys and build the (at most two) output entries, keyed
`{tag}/{file}/bytecode` and `{tag}/{file}/params`. -/
def AB.extract_entries (repo tag name userUrl : String) (val : Json) : EntryMap :=
  (match AB.find_string_by_key val "bytecode_hash_hex" with
   | some b => [(tag ++ "/" ++ name ++ "/bytecode",
       { value := b, url := userUrl,
         description := "Bytecode hash for " ++ name ++ " for tag " ++ tag ++ " in " ++ repo })]
   | none => [])
  ++ (match AB.find_string_by_key val "params_hex" with
   | some p => [(tag ++ "/" ++ name ++ "/params",
       { value := p, url := userUrl,
         description := "Verification params hash for " ++ name ++ " for tag " ++ tag ++ " in " ++ repo })]
   | none => [])

/-! ## Configuration defaults (`Config::default` of the two binaries) -/

/-- `airbender_hashes` `Config` (the `tags_prefix` field is named `tagsPre`
here). -/
structure AB.Config where
  owner : String
  repo : String
  subpath : String
  tagsPre : String
  out_path : String
  parallel : Nat
  max_tags : Option Nat

def AB.Config.default : AB.Config :=
  { owner := "matter-labs", repo := "zksync-airbender", subpath := "tools/verifier",
    tagsPre := "v", out_path := "airbender_verifier_index.json",
    parallel := 16, max_tags := none }

structure PC.Config where
  owner : String
  repo : String
  base_path : String
  branch : String
  out_path : String
  parallel : Nat

def PC.Config.default : PC.Config :=
  { owner := "matter-labs", repo := "zksync-era",
    base_path := "prover/data/historical_data", branch := "main",
    out_path := "commitments.json", parallel := 16 }

/-! ## Dispatch scheduling, as a step relation

A candidate pipeline is `Pending` until it starts its fetch, `inFlight`
while its fetch+extract runs, and `done` afterwards.  In
`airbender_hashes`, a spawned task first runs `sem.acquire()` on a
semaphore of capacity `cfg.parallel.max(1)`, so starting requires a free
permit; in `prover_commits` the spawned tasks begin fetching immediately —
no semaphore exists and `Config.parallel` is never read after CLI parsing. -/

structure DispatchState where
  pending : Nat
  inFlight : Nat
  done : Nat
deriving DecidableEq

inductive AB.DispatchStep (cap : Nat) : DispatchState → DispatchState → Prop
  | start (p f d : Nat) : f < cap →
      AB.DispatchStep cap ⟨p + 1, f, d⟩ ⟨p, f + 1, d⟩
  | finish (p f d : Nat) :
      AB.DispatchStep cap ⟨p, f + 1, d⟩ ⟨p, f, d + 1⟩

inductive PC.DispatchStep : DispatchState → DispatchState → Prop
  | start (p f d : Nat) : PC.DispatchStep ⟨p + 1, f, d⟩ ⟨p, f + 1, d⟩
  | finish (p f d : Nat) : PC.DispatchStep ⟨p, f + 1, d⟩ ⟨p, f, d + 1⟩

/-- The semaphore-guarded dispatch of `airbender_hashes` keeps the number of
in-flight fetch+extract operations at or below the permit count. -/
theorem ab_inflight_bounded (cap : Nat) (s t : DispatchState)
    (h : Relation.ReflTransGen (AB.DispatchStep cap) s t) (hs : s.inFlight ≤ cap) :
    t.inFlight ≤ cap := by
  induction h with
  | refl => exact hs
  | tail h1 hstep ih =>
    cases hstep with
    | start p f d hf => exact hf
    | finish p f d => exact Nat.le_of_succ_le ih

/-! ## Claim C1 — the written `items` map is strictly key-sorted -/

/-- C1: for every run that completes and writes its output, the keys of the
items map in the written RunOutcome appear in strictly ascending
lexicographic order, for any multiset of per-candidate entry maps and
regardless of the order in which candidate contributions are merged —
`l` ranges over every iteration order the accumulated `HashMap` may
present to the final sort. -/
theorem run_outcome_keys_sorted (contribs : List EntryMap) (l : EntryMap)
    (src : String) (ts : Nat) (hperm : l.Perm (Agg.aggregate contribs)) :
    ((mkOutput src ts l).items.map Prod.fst).Pairwise (fun a b => a < b) := by
  have hsorted : List.Sorted keyLE (List.insertionSort keyLE l) :=
    List.sorted_insertionSort keyLE l
  have hperm2 : (List.insertionSort keyLE l).Perm (Agg.aggregate contribs) :=
    (List.perm_insertionSort keyLE l).trans hperm
  have hnd : ((List.insertionSort keyLE l).map Prod.fst).Nodup :=
    ((hperm2.map Prod.fst).symm).nodup (nodup_keys_aggregate contribs)
  have hne : (List.insertionSort keyLE l).Pairwise (fun a b => a.1 ≠ b.1) :=
    List.pairwise_map.mp hnd
  have hpw : (List.insertionSort keyLE l).Pairwise (fun a b => a.1 < b.1) :=
    (List.Pairwise.and hsorted hne).imp (fun h => lt_of_le_of_ne h.1 h.2)
  exact List.pairwise_map.mpr hpw

theorem run_outcome_keys_sorted_w :
    ((mkOutput "matter-labs/zksync-airbender/tools/verifier" 0
        (Agg.aggregate [[("b", ⟨"0xb", "u1", "d1"⟩)], [("a", ⟨"0xa", "u2", "d2"⟩)]])).items.map
      Prod.fst).Pairwise (fun a b => a < b) :=
  run_outcome_keys_sorted
    [[("b", ⟨"0xb", "u1", "d1"⟩)], [("a", ⟨"0xa", "u2", "d2"⟩)]] _ _ 0 (List.Perm.refl _)

/-! ## Claim C2 — the concurrency bound -/

/-- C2 (refuting instance): in `prover_commits`, from 17 pending candidates
the dispatcher can reach a state with all 17 fetch+extract operations in
flight, exceeding the configured default limit of 16 — the binary creates
no semaphore and never reads `Config.parallel`. -/
theorem prover_dispatch_unbounded_cex :
    Relation.ReflTransGen PC.DispatchStep ⟨17, 0, 0⟩ ⟨0, 17, 0⟩
      ∧ PC.Config.default.parallel < 17 := by
  constructor
  · have aux : ∀ p f d, Relation.ReflTransGen PC.DispatchStep ⟨p, f, d⟩ ⟨0, f + p, d⟩ := by
      intro p
      induction p with
      | zero => intro f d; exact Relation.ReflTransGen.refl
      | succ q ih =>
        intro f d
        have h2 := ih (f + 1) d
        rw [show f + 1 + q = f + (q + 1) by omega] at h2
        exact Relation.ReflTransGen.head (PC.DispatchStep.start q f d) h2
    exact aux 17 0 0
  · decide

/-! ## Claims C6 / C10 — key-match extraction -/

/-- A tree in which `bytecode_hash_hex` holds a string at two different
depths; object fields are listed in the (sorted) order `serde_json`'s map
iterates them, so the nested occurrence is visited first. -/
def keyTwiceTree : Json :=
  Json.obj (JsonObj.cons "a"
    (Json.obj (JsonObj.cons "bytecode_hash_hex" (Json.str "h1") JsonObj.nil))
    (JsonObj.cons "bytecode_hash_hex" (Json.str "h2") JsonObj.nil))

/-- C6 (refuting instance): the target key occurs (with a string value) at
two depths of `keyTwiceTree`, yet the extraction records a single entry —
the search returns at the first match instead of continuing into all
children and recording one entry per occurrence. -/
theorem key_match_one_entry_cex :
    (dfsKeyOccurrences "bytecode_hash_hex" keyTwiceTree).length = 2
      ∧ (AB.extract_entries "zksync-airbender" "v1.0.0" "a.json" "url" keyTwiceTree).length = 1 := by
  constructor <;> rfl

/-- C6 (amended): in key-match mode each configured target key contributes
at most one recorded entry per parsed tree, whose value is the first
occurrence of the key (with a string value) in depth-first, in-order
traversal; further occurrences are not recorded. -/
theorem key_match_first_only (repo tag name userUrl : String) (val : Json) :
    AB.extract_entries repo tag name userUrl val
      = ((dfsKeyOccurrences "bytecode_hash_hex" val).head?.map
          (fun b => (tag ++ "/" ++ name ++ "/bytecode",
            ({ value := b, url := userUrl,
               description := "Bytecode hash for " ++ name ++ " for tag " ++ tag ++ " in " ++ repo } : OutputItem)))).toList
        ++ ((dfsKeyOccurrences "params_hex" val).head?.map
          (fun p => (tag ++ "/" ++ name ++ "/params",
            ({ value := p, url := userUrl,
               description := "Verification params hash for " ++ name ++ " for tag " ++ tag ++ " in " ++ repo } : OutputItem)))).toList := by
  unfold AB.extract_entries
  rw [find_eq_head, find_eq_head]
  generalize (dfsKeyOccurrences "bytecode_hash_hex" val).head? = o1
  generalize (dfsKeyOccurrences "params_hex" val).head? = o2
  cases o1 <;> cases o2 <;> rfl

/-- C10: `find_string_by_key` returns the string value of the first
occurrence of the target key in a depth-first, in-order traversal (object
entries in map order, array elements in index order, a non-string value
under the key skipped without ending the search), and returns `none`
exactly when no object node holds a direct string-valued child under the
key. -/
theorem find_string_by_key_first_dfs (v : Json) (key : String) :
    AB.find_string_by_key v key = (dfsKeyOccurrences key v).head?
      ∧ (AB.find_string_by_key v key = none ↔ dfsKeyOccurrences key v = []) := by
  refine ⟨find_eq_head v key, ?_⟩
  rw [find_eq_head v key]
  exact List.head?_eq_none_iff

/-! ## Claim C8 — pattern-match extraction -/

/-- Sixty-four hexadecimal digits with no `0x` marker in front. -/
def noMarker64 : String := String.mk (List.replicate 64 '1')

/-- C8: in pattern-match mode an entry is recorded exactly for the
string-valued leaves matching `0x` + 64 hex digits, under the structural
path from the root (array elements as `name[index]`, object keys joined by
dots); `"0x1234"` (too short) and a 64-digit string without the `0x`
marker never match, while a well-formed hash does. -/
theorem pattern_match_paths_exact :
    (∀ pre t k v, ((k, v) ∈ PC.collect_hashes pre t ↔ HashAt pre t k v))
      ∧ isHashLike "0x1234" = false
      ∧ isHashLike noMarker64 = false
      ∧ isHashLike ("0x" ++ String.mk (List.replicate 64 'a')) = true :=
  ⟨fun pre t k v => collect_mem t pre k v, by decide, by decide, by decide⟩

/-! ## The Enumerators

`airbender_hashes::list_tags` requests `/tags?per_page=100&page=N` for
`N = 1, 2, ...` until a page comes back empty, keeping the names that
start with the configured tag filter; after the loop it fails if nothing
was kept.  `prover_commits::list_subdirs` makes one listing call and keeps
the names of the `dir`-typed items, failing if none remain.  The remote
listing is abstracted as the function `page ↦ contents`; offset pagination
over a fixed item list is `pagesOf`. -/

/-- The page returned for `?per_page=perPage&page=page` by a remote listing
holding `items` in order (offset pagination: pages are full except the
last non-empty one). -/
def pagesOf (items : List String) (perPage page : Nat) : List String :=
  (items.drop ((page - 1) * perPage)).take perPage

/-- The check `if out.is_empty() { Err(...) } else { Ok(out) }` run after
the pagination loop of `list_tags`. -/
def AB.finish (pre : String) (out : List String) : Except String (List String) :=
  if out.isEmpty then Except.error ("No tags with prefix " ++ pre) else Except.ok out

/-- The pagination loop of `list_tags`, parameterized by the remote listing
`pages`; returns the loop's result together with the number of page
requests issued.  `fuel` bounds the iterations so the function is total;
`none` means the loop was still running when the fuel ran out. -/
def AB.list_tags_go (pages : Nat → List String) (pre : String) (maxTags : Option Nat) :
    Nat → Nat → List String → Nat → Option (Except String (List String) × Nat)
  | 0, _, _, _ => none
  | fuel + 1, page, out, reqs =>
    if (pages page).isEmpty then
      some (AB.finish pre out, reqs + 1)
    else
      match maxTags with
      | some m =>
        if m ≤ (out ++ (pages page).filter (fun t => strStartsWith t pre)).length then
          some (AB.finish pre
            ((out ++ (pages page).filter (fun t => strStartsWith t pre)).take m), reqs + 1)
        else
          AB.list_tags_go pages pre maxTags fuel (page + 1)
            (out ++ (pages page).filter (fun t => strStartsWith t pre)) (reqs + 1)
      | none =>
        AB.list_tags_go pages pre maxTags fuel (page + 1)
          (out ++ (pages page).filter (fun t => strStartsWith t pre)) (reqs + 1)

def AB.list_tags (pages : Nat → List String) (pre : String) (maxTags : Option Nat)
    (fuel : Nat) : Option (Except String (List String) × Nat) :=
  AB.list_tags_go pages pre maxTags fuel 1 [] 0

theorem list_tags_go_spec (items : List String) (pre : String) :
    ∀ (fuel page : Nat) (out : List String) (reqs : Nat), 1 ≤ page →
      ((items.drop ((page - 1) * 100)).length + 99) / 100 + 1 ≤ fuel →
      AB.list_tags_go (pagesOf items 100) pre none fuel page out reqs
        = some
            (AB.finish pre
              (out ++ (items.drop ((page - 1) * 100)).filter (fun t => strStartsWith t pre)),
             reqs + (((items.drop ((page - 1) * 100)).length + 99) / 100 + 1)) := by
  intro fuel
  induction fuel with
  | zero =>
    intro page out reqs hp hf
    exact absurd hf (by omega)
  | succ fuel ih =>
    intro page out reqs hp hf
    rw [AB.list_tags_go]
    have hpage : pagesOf items 100 page = (items.drop ((page - 1) * 100)).take 100 := rfl
    by_cases hrem : items.drop ((page - 1) * 100) = []
    · rw [hpage, hrem]
      simp only [List.take_nil, List.isEmpty_nil, if_true, hrem, List.filter_nil,
        List.append_nil, List.length_nil]
    · have hbatch : ((items.drop ((page - 1) * 100)).take 100).isEmpty = false := by
        rcases List.exists_cons_of_ne_nil hrem with ⟨a, l, hl⟩
        rw [hl]
        rfl
      rw [hpage, hbatch]
      simp only [Bool.false_eq_true, if_false]
      have hdd : items.drop (page * 100) = (items.drop ((page - 1) * 100)).drop 100 := by
        rw [List.drop_drop]
        congr 1
        omega
      have hlen : (items.drop (page * 100)).length
          = (items.drop ((page - 1) * 100)).length - 100 := by
        rw [hdd, List.length_drop]
      have hpos : 0 < (items.drop ((page - 1) * 100)).length :=
        List.length_pos.mpr hrem
      have hf2 : ((items.drop (((page + 1) - 1) * 100)).length + 99) / 100 + 1 ≤ fuel := by
        have : ((page + 1) - 1) * 100 = page * 100 := rfl
        rw [this, hlen]
        omega
      have h := ih (page + 1) (out ++ (items.drop ((page - 1) * 100) |>.take 100 |>.filter
        (fun t => strStartsWith t pre))) (reqs + 1) (by omega) hf2
      have hsplit : (items.drop ((page - 1) * 100)).filter (fun t => strStartsWith t pre)
          = ((items.drop ((page - 1) * 100)).take 100).filter (fun t => strStartsWith t pre)
            ++ (items.drop (page * 100)).filter (fun t => strStartsWith t pre) := by
        rw [hdd, ← List.filter_append, List.take_append_drop]
      have harg : out
            ++ ((items.drop ((page - 1) * 100)).take 100).filter (fun t => strStartsWith t pre)
            ++ (items.drop (((page + 1) - 1) * 100)).filter (fun t => strStartsWith t pre)
          = out ++ (items.drop ((page - 1) * 100)).filter (fun t => strStartsWith t pre) := by
        rw [show ((page + 1) - 1) * 100 = page * 100 from rfl, List.append_assoc, ← hsplit]
      have hcount : reqs + 1 + (((items.drop (((page + 1) - 1) * 100)).length + 99) / 100 + 1)
          = reqs + (((items.drop ((page - 1) * 100)).length + 99) / 100 + 1) := by
        rw [show ((page + 1) - 1) * 100 = page * 100 from rfl, hlen]
        omega
      rw [h, harg, hcount]

/-- GitHub contents-API item type (`type: "file" | "dir"`). -/
inductive GhItemType where
  | file
  | dir
deriving DecidableEq

/-- `prover_commits`' `GhContentItem { name, type }`. -/
structure PC.GhContentItem where
  name : String
  kind : GhItemType
deriving DecidableEq

/-- `airbender_hashes`' `GhContentItem { name, path, type }`. -/
structure AB.GhContentItem where
  name : String
  path : String
  kind : GhItemType
deriving DecidableEq

def PC.isDirItem (i : PC.GhContentItem) : Bool :=
  match i.kind with
  | GhItemType.dir => true
  | _ => false

/-- `prover_commits::list_subdirs` applied to the decoded listing body:
keep the names of `dir`-typed items, and fail if none remain. -/
def PC.list_subdirs (items : List PC.GhContentItem) : Except String (List String) :=
  if ((items.filter PC.isDirItem).map PC.GhContentItem.name).isEmpty then
    Except.error "No subdirectories"
  else
    Except.ok ((items.filter PC.isDirItem).map PC.GhContentItem.name)

/-! ## Claim C5 — pagination termination and request count -/

/-- C5: with an empty tag filter and no cap, a listing of `items` served at
100 per page makes the Enumerator issue exactly
`ceil(totalItems / 100) + 1 = (totalItems + 99) / 100 + 1` page requests
(the last one returning the empty page) and return every item in page
order; a page shorter than 100 does not stop the loop — only the empty
page does, as the request count shows. -/
theorem pagination_requests_exact (items : List String) (fuel : Nat)
    (hne : items ≠ []) (hf : (items.length + 99) / 100 + 1 ≤ fuel) :
    AB.list_tags (pagesOf items 100) "" none fuel
      = some (Except.ok items, (items.length + 99) / 100 + 1) := by
  have h := list_tags_go_spec items "" fuel 1 [] 0 (le_refl 1) (by simpa using hf)
  simp only [Nat.sub_self, Nat.zero_mul, List.drop_zero, List.nil_append, Nat.zero_add] at h
  rw [AB.list_tags, h]
  have hfil : items.filter (fun t => strStartsWith t "") = items :=
    List.filter_eq_self.mpr (fun a _ => strStartsWith_empty a)
  rw [hfil]
  rw [AB.finish, if_neg (by simpa [List.isEmpty_iff] using hne)]

theorem pagination_requests_exact_w :
    AB.list_tags (pagesOf ["v1.0.0", "v1.1.0", "beta1"] 100) "" none 2
      = some (Except.ok ["v1.0.0", "v1.1.0", "beta1"], 2) :=
  pagination_requests_exact ["v1.0.0", "v1.1.0", "beta1"] 2 (by decide) (by decide)

/-! ## Claim C7 — enumeration fails exactly on an empty filtered result -/

/-- C7: enumeration fails (and `main`'s `?` then aborts the run) exactly
when zero candidates remain after filtering: for `list_tags`, an error is
returned iff the concatenation of all pages filtered by the tag filter is
empty — an individual empty page is not by itself an error — and for
`list_subdirs`, iff the listing holds no `dir`-typed items. -/
theorem enumeration_error_iff_empty_filtered :
    (∀ (items : List String) (pre : String) (fuel : Nat),
      (items.length + 99) / 100 + 1 ≤ fuel →
      ((∃ e n, AB.list_tags (pagesOf items 100) pre none fuel = some (Except.error e, n))
        ↔ items.filter (fun t => strStartsWith t pre) = []))
    ∧ (∀ items : List PC.GhContentItem,
      (∃ e, PC.list_subdirs items = Except.error e)
        ↔ (items.filter PC.isDirItem).map PC.GhContentItem.name = []) := by
  constructor
  · intro items pre fuel hf
    have h := list_tags_go_spec items pre fuel 1 [] 0 (le_refl 1) (by simpa using hf)
    simp only [Nat.sub_self, Nat.zero_mul, List.drop_zero, List.nil_append, Nat.zero_add] at h
    rw [AB.list_tags, h]
    by_cases hfil : items.filter (fun t => strStartsWith t pre) = []
    · rw [AB.finish, if_pos (by simp [hfil])]
      exact ⟨fun _ => hfil, fun _ => ⟨"No tags with prefix " ++ pre, _, rfl⟩⟩
    · rw [AB.finish, if_neg (by simpa [List.isEmpty_iff] using hfil)]
      constructor
      · rintro ⟨e, n, heq⟩
        rw [Option.some.injEq, Prod.mk.injEq] at heq
        exact absurd heq.1.symm (by simp)
      · intro h2
        exact absurd h2 hfil
  · intro items
    rw [PC.list_subdirs]
    by_cases hfil : (items.filter PC.isDirItem).map PC.GhContentItem.name = []
    · rw [if_pos (by simp [hfil])]
      exact ⟨fun _ => hfil, fun _ => ⟨"No subdirectories", rfl⟩⟩
    · rw [if_neg (by simpa [List.isEmpty_iff] using hfil)]
      constructor
      · rintro ⟨e, heq⟩
        exact absurd heq (by simp)
      · intro h2
        exact absurd h2 hfil

theorem enumeration_error_iff_empty_filtered_w :
    (∃ e n, AB.list_tags (pagesOf ["beta1"] 100) "v" none 2 = some (Except.error e, n))
      ↔ ["beta1"].filter (fun t => strStartsWith t "v") = [] :=
  enumeration_error_iff_empty_filtered.1 ["beta1"] "v" 2 (by decide)

/-! ## Claim C9 — the enumerated candidate list is not deduplicated -/

/-- A remote listing that serves the same tag name on two successive pages
and an empty third page. -/
def dupPages : Nat → List String :=
  fun n => if n ≤ 2 then ["v1.0"] else []

/-- C9 (refuting instance): when the same identifier appears on two pages
of the remote listing, it occurs twice in the enumerated output —
`list_tags` performs no deduplication. -/
theorem enumerator_duplicates_cex :
    AB.list_tags dupPages "v" none 3 = some (Except.ok ["v1.0", "v1.0"], 3)
      ∧ (["v1.0", "v1.0"] : List String).count "v1.0" = 2 := by
  constructor
  · rfl
  · rfl

/-- C9 (amended): the Enumerator returns exactly the concatenation of the
filtered pages in page order, with multiplicity — each listed identifier
that passes the filter appears in the output as often as the remote
listing serves it; no deduplication is applied. -/
theorem enumerator_no_dedup (items : List String) (pre : String) (fuel : Nat)
    (hf : (items.length + 99) / 100 + 1 ≤ fuel)
    (hne : items.filter (fun t => strStartsWith t pre) ≠ []) :
    AB.list_tags (pagesOf items 100) pre none fuel
      = some (Except.ok (items.filter (fun t => strStartsWith t pre)),
          (items.length + 99) / 100 + 1) := by
  have h := list_tags_go_spec items pre fuel 1 [] 0 (le_refl 1) (by simpa using hf)
  simp only [Nat.sub_self, Nat.zero_mul, List.drop_zero, List.nil_append, Nat.zero_add] at h
  rw [AB.list_tags, h]
  rw [AB.finish, if_neg (by simpa [List.isEmpty_iff] using hne)]

theorem enumerator_no_dedup_w :
    AB.list_tags (pagesOf ["v1.0", "beta", "v1.0"] 100) "v" none 2
      = some (Except.ok (["v1.0", "beta", "v1.0"].filter (fun t => strStartsWith t "v")), 2) :=
  enumerator_no_dedup ["v1.0", "beta", "v1.0"] "v" 2 (by decide) (by decide)

/-! ## The Fetchers

Network interactions are passed in as arguments: a value of
`Except String (HttpResp α)` is a completed request — either a transport
error (`send()` failing) or a response with a status code and a decoded
body. -/

structure HttpResp (α : Type) where
  status : Nat
  body : α

/-- `reqwest::Response::error_for_status`: client and server error statuses
(400–599) become errors, anything else passes through. -/
def error_for_status {α : Type} (r : HttpResp α) : Except String (HttpResp α) :=
  if 400 ≤ r.status ∧ r.status ≤ 599 then
    Except.error ("HTTP status " ++ toString r.status)
  else
    Except.ok r

def AB.isJsonFileItem (i : AB.GhContentItem) : Bool :=
  (match i.kind with | GhItemType.file => true | _ => false) && strEndsWith i.name ".json"

/-- `airbender_hashes::list_json_files_for_tag` applied to the response of
the listing call `contents/{subpath}?ref={tag}`: a failed send propagates,
a 404 status yields `Ok(vec![])` before any other status handling, any
other error status is an error, and otherwise the `file`-typed `.json`
entries are kept. -/
def AB.list_json_files_for_tag (resp : Except String (HttpResp (List AB.GhContentItem))) :
    Except String (List AB.GhContentItem) :=
  match resp with
  | Except.error e => Except.error e
  | Except.ok r =>
    if r.status = 404 then Except.ok []
    else
      match error_for_status r with
      | Except.error e => Except.error e
      | Except.ok r2 => Except.ok (r2.body.filter AB.isJsonFileItem)

def PC.isCommitmentsFile (i : PC.GhContentItem) : Bool :=
  (match i.kind with | GhItemType.file => true | _ => false) && i.name == "commitments.json"

/-- `prover_commits::fetch_commitment_and_extract`, with its network
interactions passed as arguments: the per-directory listing response, the
raw `commitments.json` response, and the JSON parser.  The listing
response goes straight through `error_for_status` — there is no 404
branch here; absence is detected by `commitments.json` missing from a
successful listing, which returns the empty map. -/
def PC.fetch_commitment_and_extract
    (listResp : Except String (HttpResp (List PC.GhContentItem)))
    (rawResp : Except String (HttpResp String))
    (parse : String → Except String Json)
    (repo dir userUrl : String) : Except String EntryMap :=
  match listResp with
  | Except.error e => Except.error e
  | Except.ok r =>
    match error_for_status r with
    | Except.error e => Except.error e
    | Except.ok r2 =>
      if !r2.body.any PC.isCommitmentsFile then Except.ok []
      else
        match rawResp with
        | Except.error e => Except.error e
        | Except.ok rr =>
          match error_for_status rr with
          | Except.error e => Except.error e
          | Except.ok rr2 =>
            match parse rr2.body with
            | Except.error e => Except.error e
            | Except.ok val =>
              Except.ok
                (((PC.collect_hashes dir val).foldl hmInsert []).map
                  (fun kv => (kv.1,
                    ({ value := kv.2, url := userUrl,
                       description := "Boojum Hash for " ++ kv.1 ++ " version " ++ dir
                         ++ " in " ++ repo } : OutputItem))))

/-! ## Claim C4 — is a 404 on the sub-resource listing an absence? -/

/-- C4 (refuting instance): in `prover_commits` a 404-class status on the
per-candidate listing call makes the Fetcher return an error for that
candidate, not an empty result set. -/
theorem listing_404_is_error_cex :
    PC.fetch_commitment_and_extract (Except.ok ⟨404, []⟩)
        (Except.ok ⟨200, ""⟩) (fun _ => Except.error "parse")
        "zksync-era" "18.0.0" "url"
      = Except.error "HTTP status 404" := by
  rfl

/-- C4 (amended): in `airbender_hashes` a 404 on the per-tag listing yields
the empty file set — a valid absence, not an error; in `prover_commits`
absence is instead signalled by `commitments.json` missing from a
successfully fetched listing (zero entries, no error), while a 404-class
status on that listing itself is an error for the candidate. -/
theorem listing_absence_handling :
    (∀ items : List AB.GhContentItem,
      AB.list_json_files_for_tag (Except.ok ⟨404, items⟩) = Except.ok [])
    ∧ (∀ (items : List PC.GhContentItem) (rawResp : Except String (HttpResp String))
        (parse : String → Except String Json) (repo dir userUrl : String),
        items.any PC.isCommitmentsFile = false →
        PC.fetch_commitment_and_extract (Except.ok ⟨200, items⟩) rawResp parse repo dir userUrl
          = Except.ok [])
    ∧ (∀ (items : List PC.GhContentItem) (rawResp : Except String (HttpResp String))
        (parse : String → Except String Json) (repo dir userUrl : String),
        PC.fetch_commitment_and_extract (Except.ok ⟨404, items⟩) rawResp parse repo dir userUrl
          = Except.error "HTTP status 404") := by
  have h404 : ∀ items : List PC.GhContentItem,
      error_for_status (⟨404, items⟩ : HttpResp (List PC.GhContentItem))
        = Except.error "HTTP status 404" := by
    intro items
    rw [error_for_status,
      if_pos ⟨(by decide : (400 : Nat) ≤ 404), (by decide : (404 : Nat) ≤ 599)⟩]
    show Except.error ("HTTP status " ++ toString (404 : Nat))
        = (Except.error "HTTP status 404" : Except String (HttpResp (List PC.GhContentItem)))
    rw [show ("HTTP status " ++ toString (404 : Nat)) = "HTTP status 404" from by decide]
  refine ⟨fun items => rfl, ?_, ?_⟩
  case refine_2 =>
    intro items rawResp parse repo dir userUrl
    show (match error_for_status (⟨404, items⟩ : HttpResp (List PC.GhContentItem)) with
      | Except.error e => (Except.error e : Except String EntryMap)
      | Except.ok r2 =>
        if !r2.body.any PC.isCommitmentsFile then Except.ok []
        else
          match rawResp with
          | Except.error e => Except.error e
          | Except.ok rr =>
            match error_for_status rr with
            | Except.error e => Except.error e
            | Except.ok rr2 =>
              match parse rr2.body with
              | Except.error e => Except.error e
              | Except.ok val =>
                Except.ok
                  (((PC.collect_hashes dir val).foldl hmInsert []).map
                    (fun kv => (kv.1,
                      ({ value := kv.2, url := userUrl,
                         description := "Boojum Hash for " ++ kv.1 ++ " version " ++ dir
                           ++ " in " ++ repo } : OutputItem)))))
      = Except.error "HTTP status 404"
    rw [h404 items]
  intro items rawResp parse repo dir userUrl hno
  show (match error_for_status ⟨200, items⟩ with
    | Except.error e => Except.error e
    | Except.ok r2 =>
      if !r2.body.any PC.isCommitmentsFile then (Except.ok [] : Except String EntryMap)
      else
        match rawResp with
        | Except.error e => Except.error e
        | Except.ok rr =>
          match error_for_status rr with
          | Except.error e => Except.error e
          | Except.ok rr2 =>
            match parse rr2.body with
            | Except.error e => Except.error e
            | Except.ok val =>
              Except.ok
                (((PC.collect_hashes dir val).foldl hmInsert []).map
                  (fun kv => (kv.1,
                    ({ value := kv.2, url := userUrl,
                       description := "Boojum Hash for " ++ kv.1 ++ " version " ++ dir
                         ++ " in " ++ repo } : OutputItem))))) = Except.ok []
  rw [show error_for_status (⟨200, items⟩ : HttpResp (List PC.GhContentItem))
      = Except.ok ⟨200, items⟩ from rfl]
  show (if !items.any PC.isCommitmentsFile then (Except.ok [] : Except String EntryMap)
    else _) = Except.ok []
  rw [hno]
  rfl

theorem listing_absence_handling_w :
    PC.fetch_commitment_and_extract
        (Except.ok ⟨200, [{ name := "setup.key", kind := GhItemType.file }]⟩)
        (Except.ok ⟨200, ""⟩) (fun _ => Except.error "parse")
        "zksync-era" "18.0.0" "url"
      = Except.ok [] :=
  listing_absence_handling.2.1 [{ name := "setup.key", kind := GhItemType.file }]
    (Except.ok ⟨200, ""⟩) (fun _ => Except.error "parse") "zksync-era" "18.0.0" "url"
    (by decide)

/-! ## The dispatch loops (Claim C3)

`prover_commits`' collection loop receives, per joined task, the directory
name and the `fetch_commitment_and_extract` result: `Ok` maps are merged
into `all_entries` (non-empty ones), errors are printed as
`[warn] {dir}: {e}` and dropped.  `airbender_hashes` iterates tags; the
per-tag listing result is consumed with `?` — an error there aborts the
whole run — while the per-file results inside a tag are handled with the
same warn-and-continue pattern.  Both loops are modelled as folds over the
lists of per-candidate results, threading the aggregate map and the list
of emitted warn lines. -/

def PC.runDispatch : List (String × Except String EntryMap) →
    EntryMap × List String → EntryMap × List String
  | [], st => st
  | (dir, res) :: rest, st =>
    PC.runDispatch rest
      (match res with
       | Except.ok hs => if hs.isEmpty then st else (hmExtend st.1 hs, st.2)
       | Except.error e => (st.1, st.2 ++ ["[warn] " ++ dir ++ ": " ++ e]))

def AB.runFiles (tag : String) : List (Except String EntryMap) →
    EntryMap × List String → EntryMap × List String
  | [], st => st
  | res :: rest, st =>
    AB.runFiles tag rest
      (match res with
       | Except.ok entry => (hmExtend st.1 entry, st.2)
       | Except.error e => (st.1, st.2 ++ ["[warn] " ++ tag ++ ": " ++ e]))

/-- One iteration of `airbender_hashes`' outer loop after a successful
listing: run the per-file tasks from a fresh `entries` map and merge a
non-empty result into `tag_entries` (an empty file list or all-empty
results leave it unchanged, like the `continue`). -/
def AB.processTag (st : EntryMap × List String) (tag : String)
    (files : List (Except String EntryMap)) : EntryMap × List String :=
  if (AB.runFiles tag files ([], st.2)).1.isEmpty then
    (st.1, (AB.runFiles tag files ([], st.2)).2)
  else
    (hmExtend st.1 (AB.runFiles tag files ([], st.2)).1, (AB.runFiles tag files ([], st.2)).2)

def AB.runDispatch : List (String × Except String (List (Except String EntryMap))) →
    EntryMap × List String → Except String (EntryMap × List String)
  | [], st => Except.ok st
  | (_, Except.error e) :: _, _ => Except.error e
  | (tag, Except.ok files) :: rest, st => AB.runDispatch rest (AB.processTag st tag files)

theorem pc_run_agg_mono (l : List (String × Except String EntryMap)) :
    ∀ (st : EntryMap × List String) (k : String), k ∈ keysOf st.1 →
      k ∈ keysOf (PC.runDispatch l st).1 := by
  induction l with
  | nil => intro st k h; exact h
  | cons hd rest ih =>
    obtain ⟨dir, res⟩ := hd
    intro st k h
    cases res with
    | ok hs =>
      have hred : PC.runDispatch ((dir, Except.ok hs) :: rest) st
          = PC.runDispatch rest (if hs.isEmpty then st else (hmExtend st.1 hs, st.2)) := rfl
      rw [hred]
      by_cases he : hs.isEmpty
      · rw [if_pos he]; exact ih st k h
      · rw [if_neg he]; exact ih _ k (mem_keys_hmExtend_left hs st.1 k h)
    | error e =>
      have hred : PC.runDispatch ((dir, Except.error e) :: rest) st
          = PC.runDispatch rest (st.1, st.2 ++ ["[warn] " ++ dir ++ ": " ++ e]) := rfl
      rw [hred]
      exact ih _ k h

theorem pc_run_logs_mono (l : List (String × Except String EntryMap)) :
    ∀ (st : EntryMap × List String) (x : String), x ∈ st.2 →
      x ∈ (PC.runDispatch l st).2 := by
  induction l with
  | nil => intro st x h; exact h
  | cons hd rest ih =>
    obtain ⟨dir, res⟩ := hd
    intro st x h
    cases res with
    | ok hs =>
      have hred : PC.runDispatch ((dir, Except.ok hs) :: rest) st
          = PC.runDispatch rest (if hs.isEmpty then st else (hmExtend st.1 hs, st.2)) := rfl
      rw [hred]
      by_cases he : hs.isEmpty
      · rw [if_pos he]; exact ih st x h
      · rw [if_neg he]; exact ih _ x h
    | error e =>
      have hred : PC.runDispatch ((dir, Except.error e) :: rest) st
          = PC.runDispatch rest (st.1, st.2 ++ ["[warn] " ++ dir ++ ": " ++ e]) := rfl
      rw [hred]
      exact ih _ x (List.mem_append_left _ h)

theorem pc_run_ok_keys (l : List (String × Except String EntryMap)) :
    ∀ (st : EntryMap × List String) (d : String) (hs : EntryMap),
      (d, Except.ok hs) ∈ l → ∀ k ∈ keysOf hs, k ∈ keysOf (PC.runDispatch l st).1 := by
  induction l with
  | nil => intro st d hs h; cases h
  | cons hd rest ih =>
    obtain ⟨dir, res⟩ := hd
    intro st d hs hmem k hk
    rcases List.mem_cons.mp hmem with heq | hmem'
    · rw [Prod.mk.injEq] at heq
      cases res with
      | ok hs2 =>
        have hhs : hs2 = hs := by
          have := heq.2
          exact (Except.ok.injEq _ _).mp this.symm
        subst hhs
        have hred : PC.runDispatch ((dir, Except.ok hs2) :: rest) st
            = PC.runDispatch rest (if hs2.isEmpty then st else (hmExtend st.1 hs2, st.2)) := rfl
        rw [hred]
        by_cases he : hs2.isEmpty
        · rw [List.isEmpty_iff] at he
          rw [he] at hk
          cases hk
        · rw [if_neg he]
          exact pc_run_agg_mono rest _ k (mem_keys_hmExtend_right hs2 st.1 k hk)
      | error e =>
        exact absurd heq.2.symm (by simp)
    · cases res with
      | ok hs2 =>
        have hred : PC.runDispatch ((dir, Except.ok hs2) :: rest) st
            = PC.runDispatch rest (if hs2.isEmpty then st else (hmExtend st.1 hs2, st.2)) := rfl
        rw [hred]
        exact ih _ d hs hmem' k hk
      | error e =>
        have hred : PC.runDispatch ((dir, Except.error e) :: rest) st
            = PC.runDispatch rest (st.1, st.2 ++ ["[warn] " ++ dir ++ ": " ++ e]) := rfl
        rw [hred]
        exact ih _ d hs hmem' k hk

theorem pc_run_err_logged (l : List (String × Except String EntryMap)) :
    ∀ (st : EntryMap × List String) (d e : String),
      (d, Except.error e) ∈ l →
      ("[warn] " ++ d ++ ": " ++ e) ∈ (PC.runDispatch l st).2 := by
  induction l with
  | nil => intro st d e h; cases h
  | cons hd rest ih =>
    obtain ⟨dir, res⟩ := hd
    intro st d e hmem
    rcases List.mem_cons.mp hmem with heq | hmem'
    · rw [Prod.mk.injEq] at heq
      cases res with
      | ok hs2 => exact absurd heq.2.symm (by simp)
      | error e2 =>
        have hee : e2 = e := by
          have := heq.2
          exact (Except.error.injEq _ _).mp this.symm
        have hred : PC.runDispatch ((dir, Except.error e2) :: rest) st
            = PC.runDispatch rest (st.1, st.2 ++ ["[warn] " ++ dir ++ ": " ++ e2]) := rfl
        rw [hred]
        refine pc_run_logs_mono rest _ _ ?_
        rw [heq.1, hee]
        exact List.mem_append_right _ (List.mem_singleton.mpr rfl)
    · cases res with
      | ok hs2 =>
        have hred : PC.runDispatch ((dir, Except.ok hs2) :: rest) st
            = PC.runDispatch rest (if hs2.isEmpty then st else (hmExtend st.1 hs2, st.2)) := rfl
        rw [hred]
        exact ih _ d e hmem'
      | error e2 =>
        have hred : PC.runDispatch ((dir, Except.error e2) :: rest) st
            = PC.runDispatch rest (st.1, st.2 ++ ["[warn] " ++ dir ++ ": " ++ e2]) := rfl
        rw [hred]
        exact ih _ d e hmem'

theorem ab_files_agg_mono (tag : String) (files : List (Except String EntryMap)) :
    ∀ (st : EntryMap × List String) (k : String), k ∈ keysOf st.1 →
      k ∈ keysOf (AB.runFiles tag files st).1 := by
  induction files with
  | nil => intro st k h; exact h
  | cons res rest ih =>
    intro st k h
    cases res with
    | ok entry =>
      have hred : AB.runFiles tag (Except.ok entry :: rest) st
          = AB.runFiles tag rest (hmExtend st.1 entry, st.2) := rfl
      rw [hred]
      exact ih _ k (mem_keys_hmExtend_left entry st.1 k h)
    | error e =>
      have hred : AB.runFiles tag (Except.error e :: rest) st
          = AB.runFiles tag rest (st.1, st.2 ++ ["[warn] " ++ tag ++ ": " ++ e]) := rfl
      rw [hred]
      exact ih _ k h

theorem ab_files_logs_mono (tag : String) (files : List (Except String EntryMap)) :
    ∀ (st : EntryMap × List String) (x : String), x ∈ st.2 →
      x ∈ (AB.runFiles tag files st).2 := by
  induction files with
  | nil => intro st x h; exact h
  | cons res rest ih =>
    intro st x h
    cases res with
    | ok entry =>
      have hred : AB.runFiles tag (Except.ok entry :: rest) st
          = AB.runFiles tag rest (hmExtend st.1 entry, st.2) := rfl
      rw [hred]
      exact ih _ x h
    | error e =>
      have hred : AB.runFiles tag (Except.error e :: rest) st
          = AB.runFiles tag rest (st.1, st.2 ++ ["[warn] " ++ tag ++ ": " ++ e]) := rfl
      rw [hred]
      exact ih _ x (List.mem_append_left _ h)

theorem ab_files_ok_keys (tag : String) (files : List (Except String EntryMap)) :
    ∀ (st : EntryMap × List String) (entry : EntryMap),
      Except.ok entry ∈ files → ∀ k ∈ keysOf entry,
      k ∈ keysOf (AB.runFiles tag files st).1 := by
  induction files with
  | nil => intro st entry h; cases h
  | cons res rest ih =>
    intro st entry hmem k hk
    rcases List.mem_cons.mp hmem with heq | hmem'
    · cases res with
      | ok entry2 =>
        have hent : entry2 = entry := (Except.ok.injEq _ _).mp heq.symm
        subst hent
        have hred : AB.runFiles tag (Except.ok entry2 :: rest) st
            = AB.runFiles tag rest (hmExtend st.1 entry2, st.2) := rfl
        rw [hred]
        exact ab_files_agg_mono tag rest _ k (mem_keys_hmExtend_right entry2 st.1 k hk)
      | error e => exact absurd heq.symm (by simp)
    · cases res with
      | ok entry2 =>
        have hred : AB.runFiles tag (Except.ok entry2 :: rest) st
            = AB.runFiles tag rest (hmExtend st.1 entry2, st.2) := rfl
        rw [hred]
        exact ih _ entry hmem' k hk
      | error e =>
        have hred : AB.runFiles tag (Except.error e :: rest) st
            = AB.runFiles tag rest (st.1, st.2 ++ ["[warn] " ++ tag ++ ": " ++ e]) := rfl
        rw [hred]
        exact ih _ entry hmem' k hk

theorem ab_files_err_logged (tag : String) (files : List (Except String EntryMap)) :
    ∀ (st : EntryMap × List String) (e : String),
      Except.error e ∈ files →
      ("[warn] " ++ tag ++ ": " ++ e) ∈ (AB.runFiles tag files st).2 := by
  induction files with
  | nil => intro st e h; cases h
  | cons res rest ih =>
    intro st e hmem
    rcases List.mem_cons.mp hmem with heq | hmem'
    · cases res with
      | ok entry2 => exact absurd heq.symm (by simp)
      | error e2 =>
        have hee : e2 = e := (Except.error.injEq _ _).mp heq.symm
        subst hee
        have hred : AB.runFiles tag (Except.error e2 :: rest) st
            = AB.runFiles tag rest (st.1, st.2 ++ ["[warn] " ++ tag ++ ": " ++ e2]) := rfl
        rw [hred]
        exact ab_files_logs_mono tag rest _ _
          (List.mem_append_right _ (List.mem_singleton.mpr rfl))
    · cases res with
      | ok entry2 =>
        have hred : AB.runFiles tag (Except.ok entry2 :: rest) st
            = AB.runFiles tag rest (hmExtend st.1 entry2, st.2) := rfl
        rw [hred]
        exact ih _ e hmem'
      | error e2 =>
        have hred : AB.runFiles tag (Except.error e2 :: rest) st
            = AB.runFiles tag rest (st.1, st.2 ++ ["[warn] " ++ tag ++ ": " ++ e2]) := rfl
        rw [hred]
        exact ih _ e hmem'

theorem ab_ptag_agg_mono (st : EntryMap × List String) (tag : String)
    (files : List (Except String EntryMap)) (k : String) (h : k ∈ keysOf st.1) :
    k ∈ keysOf (AB.processTag st tag files).1 := by
  rw [AB.processTag]
  by_cases he : (AB.runFiles tag files ([], st.2)).1.isEmpty
  · rw [if_pos he]; exact h
  · rw [if_neg he]; exact mem_keys_hmExtend_left _ st.1 k h

theorem ab_ptag_ok_keys (st : EntryMap × List String) (tag : String)
    (files : List (Except String EntryMap)) (entry : EntryMap) (k : String)
    (hmem : Except.ok entry ∈ files) (hk : k ∈ keysOf entry) :
    k ∈ keysOf (AB.processTag st tag files).1 := by
  have h1 : k ∈ keysOf (AB.runFiles tag files ([], st.2)).1 :=
    ab_files_ok_keys tag files ([], st.2) entry hmem k hk
  rw [AB.processTag]
  by_cases he : (AB.runFiles tag files ([], st.2)).1.isEmpty
  · rw [List.isEmpty_iff] at he
    rw [he] at h1
    cases h1
  · rw [if_neg he]
    exact mem_keys_hmExtend_right _ st.1 k h1

theorem ab_ptag_logs_mono (st : EntryMap × List String) (tag : String)
    (files : List (Except String EntryMap)) (x : String) (h : x ∈ st.2) :
    x ∈ (AB.processTag st tag files).2 := by
  have h1 : x ∈ (AB.runFiles tag files ([], st.2)).2 :=
    ab_files_logs_mono tag files ([], st.2) x h
  rw [AB.processTag]
  by_cases he : (AB.runFiles tag files ([], st.2)).1.isEmpty
  · rw [if_pos he]; exact h1
  · rw [if_neg he]; exact h1

theorem ab_ptag_err_logged (st : EntryMap × List String) (tag : String)
    (files : List (Except String EntryMap)) (e : String)
    (hmem : Except.error e ∈ files) :
    ("[warn] " ++ tag ++ ": " ++ e) ∈ (AB.processTag st tag files).2 := by
  have h1 := ab_files_err_logged tag files ([], st.2) e hmem
  rw [AB.processTag]
  by_cases he : (AB.runFiles tag files ([], st.2)).1.isEmpty
  · rw [if_pos he]; exact h1
  · rw [if_neg he]; exact h1

theorem ab_run_completes (tags : List (String × Except String (List (Except String EntryMap)))) :
    ∀ st : EntryMap × List String,
      (∀ x ∈ tags, ∃ fs, x.2 = Except.ok fs) →
      ∃ st2, AB.runDispatch tags st = Except.ok st2 := by
  induction tags with
  | nil => intro st _; exact ⟨st, rfl⟩
  | cons hd rest ih =>
    obtain ⟨tag, res⟩ := hd
    intro st hall
    rcases hall (tag, res) (List.mem_cons_self _ _) with ⟨fs, hfs⟩
    have hres : res = Except.ok fs := hfs
    rw [hres]
    exact ih (AB.processTag st tag fs) (fun x hx => hall x (List.mem_cons_of_mem _ hx))

theorem ab_run_agg_mono (tags : List (String × Except String (List (Except String EntryMap)))) :
    ∀ (st st2 : EntryMap × List String) (k : String),
      AB.runDispatch tags st = Except.ok st2 → k ∈ keysOf st.1 → k ∈ keysOf st2.1 := by
  induction tags with
  | nil =>
    intro st st2 k hrun h
    rw [show AB.runDispatch [] st = Except.ok st from rfl, Except.ok.injEq] at hrun
    rw [← hrun]
    exact h
  | cons hd rest ih =>
    obtain ⟨tag, res⟩ := hd
    intro st st2 k hrun h
    cases res with
    | error e =>
      rw [show AB.runDispatch ((tag, Except.error e) :: rest) st = Except.error e from rfl] at hrun
      cases hrun
    | ok files =>
      rw [show AB.runDispatch ((tag, Except.ok files) :: rest) st
          = AB.runDispatch rest (AB.processTag st tag files) from rfl] at hrun
      exact ih _ st2 k hrun (ab_ptag_agg_mono st tag files k h)

theorem ab_run_logs_mono (tags : List (String × Except String (List (Except String EntryMap)))) :
    ∀ (st st2 : EntryMap × List String) (x : String),
      AB.runDispatch tags st = Except.ok st2 → x ∈ st.2 → x ∈ st2.2 := by
  induction tags with
  | nil =>
    intro st st2 x hrun h
    rw [show AB.runDispatch [] st = Except.ok st from rfl, Except.ok.injEq] at hrun
    rw [← hrun]
    exact h
  | cons hd rest ih =>
    obtain ⟨tag, res⟩ := hd
    intro st st2 x hrun h
    cases res with
    | error e =>
      rw [show AB.runDispatch ((tag, Except.error e) :: rest) st = Except.error e from rfl] at hrun
      cases hrun
    | ok files =>
      rw [show AB.runDispatch ((tag, Except.ok files) :: rest) st
          = AB.runDispatch rest (AB.processTag st tag files) from rfl] at hrun
      exact ih _ st2 x hrun (ab_ptag_logs_mono st tag files x h)

theorem ab_run_key_kept (tags : List (String × Except String (List (Except String EntryMap)))) :
    ∀ (st st2 : EntryMap × List String) (tag : String)
      (files : List (Except String EntryMap)) (entry : EntryMap) (k : String),
      AB.runDispatch tags st = Except.ok st2 →
      (tag, Except.ok files) ∈ tags → Except.ok entry ∈ files →
      k ∈ keysOf entry → k ∈ keysOf st2.1 := by
  induction tags with
  | nil => intro st st2 tag files entry k _ hmem; cases hmem
  | cons hd rest ih =>
    obtain ⟨tag0, res⟩ := hd
    intro st st2 tag files entry k hrun hmem hfile hk
    cases res with
    | error e =>
      rw [show AB.runDispatch ((tag0, Except.error e) :: rest) st = Except.error e from rfl] at hrun
      cases hrun
    | ok files0 =>
      rw [show AB.runDispatch ((tag0, Except.ok files0) :: rest) st
          = AB.runDispatch rest (AB.processTag st tag0 files0) from rfl] at hrun
      rcases List.mem_cons.mp hmem with heq | hmem'
      · rw [Prod.mk.injEq] at heq
        have hfs : files0 = files := (Except.ok.injEq _ _).mp heq.2.symm
        subst hfs
        exact ab_run_agg_mono rest _ st2 k hrun
          (ab_ptag_ok_keys st tag0 files0 entry k hfile hk)
      · exact ih _ st2 tag files entry k hrun hmem' hfile hk

theorem ab_run_warn_logged (tags : List (String × Except String (List (Except String EntryMap)))) :
    ∀ (st st2 : EntryMap × List String) (tag : String)
      (files : List (Except String EntryMap)) (e : String),
      AB.runDispatch tags st = Except.ok st2 →
      (tag, Except.ok files) ∈ tags → Except.error e ∈ files →
      ("[warn] " ++ tag ++ ": " ++ e) ∈ st2.2 := by
  induction tags with
  | nil => intro st st2 tag files e _ hmem; cases hmem
  | cons hd rest ih =>
    obtain ⟨tag0, res⟩ := hd
    intro st st2 tag files e hrun hmem hfile
    cases res with
    | error e2 =>
      rw [show AB.runDispatch ((tag0, Except.error e2) :: rest) st = Except.error e2 from rfl] at hrun
      cases hrun
    | ok files0 =>
      rw [show AB.runDispatch ((tag0, Except.ok files0) :: rest) st
          = AB.runDispatch rest (AB.processTag st tag0 files0) from rfl] at hrun
      rcases List.mem_cons.mp hmem with heq | hmem'
      · rw [Prod.mk.injEq] at heq
        have hfs : files0 = files := (Except.ok.injEq _ _).mp heq.2.symm
        subst hfs
        rw [heq.1]
        exact ab_run_logs_mono rest _ st2 _ hrun
          (ab_ptag_err_logged st tag0 files0 e hfile)
      · exact ih _ st2 tag files e hrun hmem' hfile

/-- C3 (refuting instance): in `airbender_hashes`, when exactly one of two
candidates fails with a fetch error — its sub-resource listing request
returning a non-404 status — the whole run aborts with that error instead
of completing and writing output with the other candidate's entries. -/
theorem one_failure_aborts_run_cex :
    AB.runDispatch
        [("v1.0.0", Except.ok [Except.ok
            [("v1.0.0/a.json/bytecode", ⟨"0xa", "u", "d"⟩)]]),
         ("v1.1.0", Except.error "HTTP status 500")] ([], [])
      = Except.error "HTTP status 500" := by
  rfl

/-- C3 (amended): in `prover_commits`, any per-candidate pipeline failure
is caught, logged as `[warn] {dir}: {e}`, and the dispatch still merges
the entries of every successful candidate.  In `airbender_hashes` the same
isolation holds for failures of the per-file fetch-or-parse step
(`fetch_and_extract`) — the run completes when every tag's sub-resource
listing succeeds — but a non-404 listing failure aborts the run. -/
theorem per_candidate_failure_isolated :
    (∀ (results : List (String × Except String EntryMap)) (d e : String),
      (d, Except.error e) ∈ results →
      ("[warn] " ++ d ++ ": " ++ e) ∈ (PC.runDispatch results ([], [])).2
        ∧ ∀ (d2 : String) (hs : EntryMap), (d2, Except.ok hs) ∈ results →
            ∀ k ∈ keysOf hs, k ∈ keysOf (PC.runDispatch results ([], [])).1)
    ∧ (∀ tags : List (String × Except String (List (Except String EntryMap))),
        (∀ x ∈ tags, ∃ fs, x.2 = Except.ok fs) →
        ∃ agg logs, AB.runDispatch tags ([], []) = Except.ok (agg, logs)
          ∧ (∀ (tag : String) (files : List (Except String EntryMap)) (e : String),
              (tag, Except.ok files) ∈ tags → Except.error e ∈ files →
              ("[warn] " ++ tag ++ ": " ++ e) ∈ logs)
          ∧ (∀ (tag : String) (files : List (Except String EntryMap)) (entry : EntryMap),
              (tag, Except.ok files) ∈ tags → Except.ok entry ∈ files →
              ∀ k ∈ keysOf entry, k ∈ keysOf agg)) := by
  constructor
  · intro results d e hmem
    exact ⟨pc_run_err_logged results ([], []) d e hmem,
      fun d2 hs hmem2 k hk => pc_run_ok_keys results ([], []) d2 hs hmem2 k hk⟩
  · intro tags hall
    rcases ab_run_completes tags ([], []) hall with ⟨st2, hrun⟩
    obtain ⟨agg, logs⟩ := st2
    refine ⟨agg, logs, hrun, ?_, ?_⟩
    · intro tag files e hmem hfile
      exact ab_run_warn_logged tags ([], []) (agg, logs) tag files e hrun hmem hfile
    · intro tag files entry hmem hfile k hk
      exact ab_run_key_kept tags ([], []) (agg, logs) tag files entry k hrun hmem hfile hk

theorem per_candidate_failure_isolated_w :
    ("[warn] " ++ "19.0.0" ++ ": " ++ "HTTP status 500")
        ∈ (PC.runDispatch
            [("18.0.0", Except.ok [("18.0.0", ⟨"0xa", "u", "d"⟩)]),
             ("19.0.0", Except.error "HTTP status 500")] ([], [])).2 :=
  (per_candidate_failure_isolated.1
      [("18.0.0", Except.ok [("18.0.0", ⟨"0xa", "u", "d"⟩)]),
       ("19.0.0", Except.error "HTTP status 500")] "19.0.0" "HTTP status 500"
      (List.mem_cons_of_mem _ (List.mem_cons_self _ _))).1
